import Mathlib

/-!
Verification of the chess retrograde-analysis system: a shallow embedding of
`src/chess_bfs.py` (resumable BFS tree builder), `src/persistent_storage.py`
(SQLite checkpoint store) and `src/retrograde_analysis.py` (retrograde
decrement analyzer), together with theorems settling the specification claims.

Modelling conventions:
* Chess positions are identified by their canonical FEN strings; we conflate a
  `chess.Board` object with its FEN (the FEN is the canonical identity used as
  the tree key, and `Board(fen)` reconstructs the board).  Moves are their UCI
  strings (`str(move)` / `Move.from_uci` are mutually inverse).
* The python-chess rule engine is an external capability; it is modelled as an
  abstract `Oracle` record of pure functions.
* Python `dict`s (which preserve insertion order) are modelled as association
  lists with unique keys; Python `set`s are modelled as duplicate-free lists
  (insert-if-absent), so "added exactly once" is observable.
* Wall-clock time (`time.time()`) is modelled by an abstract `clock` function
  indexed by the number of clock reads made so far.
* Unbounded `while` loops are modelled by iterating an explicit step function
  (the step is the identity once the worklist is empty), or by structural fuel;
  invariant claims are proved for every iterate.
-/

namespace ChessRetro

/-- Association-list lookup, first match wins (models Python `dict` access). -/
def alookup {β : Type} : List (String × β) → String → Option β
  | [], _ => none
  | (k, v) :: rest, key => if k = key then some v else alookup rest key

/-- Keys of an association list in insertion order. -/
def akeys {β : Type} (l : List (String × β)) : List String := l.map Prod.fst

/-- The Rule Oracle (external collaborator, `python-chess` in the source):
legal-move generation, move application, terminal classification and the
promotion-piece test `move.promotion in [chess.BISHOP, chess.ROOK]`.
Positions are FEN strings, moves are UCI strings. -/
structure Oracle where
  legalMoves : String → List String
  applyMove : String → String → String
  isCheckmate : String → Bool
  isStalemate : String → Bool
  isGameOver : String → Bool
  promoBR : String → Bool

/-- One record of the move tree, the value stored at `tree[position_key]` in
`chess_bfs.py` (lines 145-151): depth, arrival move sequence, terminal flags
and the board (identified with its FEN).  The `children` field models the
optional `'children'` key read by `retrograde_analysis.build_parent_map` via
`data.get('children', [])`; records created by the tree builder never set it,
which we model by the builder always storing `[]`. -/
structure PosData where
  depth : Nat
  moves : List String
  is_checkmate : Bool
  is_stalemate : Bool
  board : String
  children : List String
deriving DecidableEq, Repr

/-- The PositionSet: FEN-keyed insertion-ordered map of position records. -/
abbrev Tree : Type := List (String × PosData)

/-- The Progress Marker written with each checkpoint (`progress` table row;
the timestamp column is write-only noise and is not modelled). -/
structure Progress where
  starting_fen : String
  current_depth : Nat
  max_depth : Nat
  positions_analyzed : Nat
deriving DecidableEq, Repr

/-! ## Tree Builder (`chess_bfs.ChessBFS.generate_move_tree`) -/

/-- Mutable state of one `generate_move_tree` run: the tree, the next BFS
frontier, the `positions_analyzed` counter, a count of Oracle invocations
(`legal_moves` generations plus move applications), the mid-depth checkpoint
counter with its `last_save_time`, the per-depth save counter, and the index
of the next `time.time()` read. -/
structure BfsState where
  tree : Tree
  next_level : List (String × List String)
  analyzed : Nat
  calls : Nat
  midSaves : Nat
  lastSave : Nat
  tCalls : Nat
  depthSaves : Nat
deriving DecidableEq

/-- The wall-clock mid-depth checkpoint of `generate_move_tree`
(lines 162-166), evaluated once per examined move: read `time.time()` and
save out-of-band when `save_interval_seconds = 2 * 60 * 60` have elapsed since
the last save. -/
def clockCheck (clock : Nat → Nat) (st : BfsState) : BfsState :=
  let t := clock st.tCalls
  let st2 := { st with tCalls := st.tCalls + 1 }
  if st2.lastSave + 7200 ≤ t then
    { st2 with midSaves := st2.midSaves + 1, lastSave := t }
  else st2

/-- Body of the innermost loop of `generate_move_tree` (lines 123-166): one
candidate `move` from `board.legal_moves`.  Bishop/rook promotions are pruned
when `limit_promotions`; the optional checkmate-filter hook prunes further;
otherwise the move is counted, applied, the resulting position is recorded if
its FEN is new (non-game-over fresh positions join the next frontier), and the
wall-clock mid-depth checkpoint condition is evaluated. -/
def expandMove (O : Oracle) (lp : Bool) (det : Option (String → String → Bool))
    (clock : Nat → Nat) (depth : Nat) (board : String) (hist : List String)
    (st : BfsState) (mv : String) : BfsState :=
  if lp && O.promoBR mv then st
  else if (match det with
           | some f => !(f board mv)
           | none => false) then st
  else
    let st1 := { st with analyzed := st.analyzed + 1 }
    let nb := O.applyMove board mv
    let st2 := { st1 with calls := st1.calls + 1 }
    let hist2 := hist ++ [mv]
    let st3 :=
      if (alookup st2.tree nb).isSome then st2
      else
        let rec0 : PosData :=
          { depth := depth, moves := hist2, is_checkmate := O.isCheckmate nb,
            is_stalemate := O.isStalemate nb, board := nb, children := [] }
        let st' := { st2 with tree := st2.tree ++ [(nb, rec0)] }
        if O.isGameOver nb then st'
        else { st' with next_level := st'.next_level ++ [(nb, hist2)] }
    clockCheck clock st3

/-- One frontier position (lines 122-166): generate its legal moves (one Oracle
call) and fold `expandMove` over them. -/
def processParent (O : Oracle) (lp : Bool) (det : Option (String → String → Bool))
    (clock : Nat → Nat) (depth : Nat) (st : BfsState)
    (parent : String × List String) : BfsState :=
  let moves := O.legalMoves parent.1
  let st1 := { st with calls := st.calls + 1 }
  moves.foldl (expandMove O lp det clock depth parent.1 parent.2) st1

/-- The per-depth loop of `generate_move_tree` (lines 111-187), structurally
recursive on the number of remaining depths: process the whole frontier, save
if `current_depth % save_interval == 0`, and stop early if the next frontier
is empty. -/
def bfsLoop (O : Oracle) (lp : Bool) (det : Option (String → String → Bool))
    (clock : Nat → Nat) (saveInterval : Nat) :
    BfsState → List (String × List String) → Nat → Nat → BfsState
  | st, _, _, 0 => st
  | st, level, depth, remaining + 1 =>
    let st1 := level.foldl (processParent O lp det clock depth)
      { st with next_level := [] }
    let st2 :=
      if depth % saveInterval = 0 then { st1 with depthSaves := st1.depthSaves + 1 }
      else st1
    if st2.next_level = [] then st2
    else bfsLoop O lp det clock saveInterval st2 st2.next_level (depth + 1) remaining

/-- Result of one `generate_move_tree` run: the returned tree plus the
observable counters and the Progress Marker most recently written. -/
structure RunResult where
  tree : Tree
  analyzed : Nat
  calls : Nat
  midSaves : Nat
  depthSaves : Nat
  marker : Option Progress
deriving DecidableEq

/-- Resume handling of `generate_move_tree` (lines 71-86): the start depth,
initial tree, initial `positions_analyzed` and the marker currently in
storage.  Resuming requires a truthy (non-empty) saved tree and a matching
root FEN; a root mismatch clears storage and starts fresh. -/
def resumeInit (resume : Bool) (stored : Option (Tree × Progress))
    (startFen : String) : Nat × Tree × Nat × Option Progress :=
  if resume then
    match stored with
    | some (t, p) =>
      if t = ([] : Tree) then (1, ([] : Tree), 0, some p)
      else if p.starting_fen = startFen then
        (p.current_depth + 1, t, p.positions_analyzed, some p)
      else (1, ([] : Tree), 0, none)
    | none => (1, ([] : Tree), 0, none)
  else (1, ([] : Tree), 0, stored.map Prod.snd)

/-- Model of `ChessBFS.generate_move_tree` (lines 34-204).  `stored` is what
`storage.load_tree()` returns (the saved tree and marker, or `none`);
resuming requires a truthy (non-empty) saved tree and a matching root FEN, a
mismatch clears storage and starts fresh.  If the resumed start depth already
exceeds `max_depth` the stored tree is returned unchanged before any Oracle
use.  The `save_interval_nodes` parameter is faithfully reproduced from the
source: it is accepted and documented but never read by the loop body. -/
def generate_move_tree (O : Oracle) (startFen : String) (maxDepth : Nat)
    (resume : Bool) (stored : Option (Tree × Progress))
    (det : Option (String → String → Bool)) (lp : Bool)
    (saveInterval : Nat) (save_interval_nodes : Nat) (clock : Nat → Nat) :
    RunResult :=
  let init := resumeInit resume stored startFen
  let startDepth := init.1
  let tree0 := init.2.1
  let analyzed0 := init.2.2.1
  let marker0 := init.2.2.2
  if maxDepth < startDepth then
    { tree := tree0, analyzed := analyzed0, calls := 0, midSaves := 0,
      depthSaves := 0, marker := marker0 }
  else
    let level0 : List (String × List String) :=
      if startDepth = 1 then [(startFen, [])]
      else (tree0.filter (fun e =>
        (e.2.depth == startDepth - 1) && !e.2.is_checkmate && !e.2.is_stalemate)).map
        (fun e => (e.2.board, e.2.moves))
    let st0 : BfsState :=
      { tree := tree0, next_level := [], analyzed := analyzed0, calls := 0,
        midSaves := 0, lastSave := clock 0, tCalls := 1, depthSaves := 0 }
    let stF := bfsLoop O lp det clock saveInterval st0 level0 startDepth
      (maxDepth + 1 - startDepth)
    { tree := stF.tree, analyzed := stF.analyzed, calls := stF.calls,
      midSaves := stF.midSaves, depthSaves := stF.depthSaves + 1,
      marker := some { starting_fen := startFen, current_depth := maxDepth,
                       max_depth := maxDepth, positions_analyzed := stF.analyzed } }

/-- Body of the move loop of `generate_move_tree_simple` (lines 238-265):
bishop/rook promotions are pruned unconditionally; accepted moves are applied,
recorded if their FEN is fresh, and appended to the queue (at depth + 1) if
the game is not over. -/
def simpleExpand (O : Oracle) (board : String) (depth : Nat) (hist : List String)
    (acc : Tree × List (String × Nat × List String)) (mv : String) :
    Tree × List (String × Nat × List String) :=
  if O.promoBR mv then acc
  else
    let nb := O.applyMove board mv
    let hist2 := hist ++ [mv]
    if (alookup acc.1 nb).isSome then acc
    else
      let rec0 : PosData :=
        { depth := depth + 1, moves := hist2,
          is_checkmate := O.isCheckmate nb,
          is_stalemate := O.isStalemate nb, board := nb, children := [] }
      (acc.1 ++ [(nb, rec0)],
       if O.isGameOver nb then acc.2 else acc.2 ++ [(nb, depth + 1, hist2)])

/-- Queue-driven loop of `generate_move_tree_simple` (lines 230-270), with
explicit fuel standing for the finitely many iterations the Python `while`
performs. -/
def simpleLoop (O : Oracle) (maxDepth : Nat) :
    Nat → List (String × Nat × List String) → Tree → Tree
  | 0, _, tree => tree
  | _ + 1, [], tree => tree
  | fuel + 1, (board, depth, hist) :: rest, tree =>
    if maxDepth ≤ depth then simpleLoop O maxDepth fuel rest tree
    else
      let step := (O.legalMoves board).foldl (simpleExpand O board depth hist) (tree, rest)
      simpleLoop O maxDepth fuel step.2 step.1

/-- Model of `ChessBFS.generate_move_tree_simple` (lines 206-280). -/
def generate_move_tree_simple (O : Oracle) (startFen : String) (maxDepth : Nat)
    (fuel : Nat) : Tree :=
  simpleLoop O maxDepth fuel [(startFen, 0, [])] []

/-! ## Checkpoint Store (`persistent_storage.ChessTreeStorage`) -/

/-- One row of the SQLite `positions` table: the terminal flags are stored as
the integers `1 if flag else 0`; `move_history` is the JSON-encoded list of
UCI strings (JSON encoding is a bijection on lists of strings, so the list is
kept directly); `board_state` is `data['board'].fen()`. -/
structure Row where
  depth : Nat
  move_history : List String
  is_checkmate : Nat
  is_stalemate : Nat
  board_state : String
deriving DecidableEq, Repr

/-- Database state: the `positions` table (primary key `fen`, upsert by
`INSERT OR REPLACE`) and the append-only `progress` table whose autoincrement
`id` order is the list order (so "most recent" is the last element). -/
structure StorageState where
  positions : List (String × Row)
  progress : List Progress
deriving DecidableEq

/-- The `INSERT OR REPLACE INTO positions` statement for one row. -/
def upsertRow : List (String × Row) → String → Row → List (String × Row)
  | [], k, r => [(k, r)]
  | (k', r') :: rest, k, r =>
    if k' = k then (k, r) :: rest else (k', r') :: upsertRow rest k r

/-- Serialization of one tree record into its table row
(`persistent_storage.py` lines 57-69). -/
def rowOf (d : PosData) : Row :=
  { depth := d.depth, move_history := d.moves,
    is_checkmate := if d.is_checkmate then 1 else 0,
    is_stalemate := if d.is_stalemate then 1 else 0,
    board_state := d.board }

/-- Model of `ChessTreeStorage.save_tree` (lines 50-85): upsert every position record,
then append one new Progress Marker row. -/
def save_tree (s : StorageState) (tree : Tree) (starting_fen : String)
    (current_depth max_depth positions_analyzed : Nat) : StorageState :=
  { positions := tree.foldl (fun ps e => upsertRow ps e.1 (rowOf e.2)) s.positions,
    progress := s.progress ++
      [{ starting_fen := starting_fen, current_depth := current_depth,
         max_depth := max_depth, positions_analyzed := positions_analyzed }] }

/-- Deserialization of one table row back into a tree record
(`persistent_storage.py` lines 103-115): integer flags become booleans via
truthiness, and no `children` key is ever materialized. -/
def loadRecord (r : Row) : PosData :=
  { depth := r.depth, moves := r.move_history,
    is_checkmate := !(r.is_checkmate == 0), is_stalemate := !(r.is_stalemate == 0),
    board := r.board_state, children := [] }

/-- Model of `ChessTreeStorage.load_tree` (lines 87-125): `none` when no progress row
exists, otherwise the whole positions table together with the progress row of
greatest `id` (`ORDER BY id DESC LIMIT 1`). -/
def load_tree (s : StorageState) : Option (Tree × Progress) :=
  match s.progress.getLast? with
  | none => none
  | some p => some (s.positions.map (fun e => (e.1, loadRecord e.2)), p)

/-! ## Retrograde Analyzer (`retrograde_analysis.RetrogradeAnalyzer`) -/

/-- Model of `find_checkmates` (lines 105-111): FENs of checkmate records, in tree
iteration order. -/
def find_checkmates (tree : Tree) : List String :=
  (tree.filter (fun e => e.2.is_checkmate)).map Prod.fst

/-- Model of `initialize_move_counts` (lines 113-124): the number of legal moves from
each recorded board.  Both `move_counts` and `initial_move_counts` start as
this table; counts live in `Int` because the propagation below can drive them
below zero.  (The Python dict is keyed by the tree's FENs; off-tree keys are
never decremented, so the total function taking `0` elsewhere is faithful.) -/
def initialize_move_counts (O : Oracle) (tree : Tree) : String → Int :=
  fun fen =>
    match alookup tree fen with
    | some d => ((O.legalMoves d.board).length : Int)
    | none => 0

/-- Per-depth statistics record (`depth_stats` defaultdict entry,
lines 36-43).  `safe_moves` sums post-decrement counts and can be negative. -/
structure DepthStats where
  positions : Nat
  checkmates : Nat
  dead_ends : Nat
  available_moves : Int
  initial_moves : Int
  safe_moves : Int
deriving DecidableEq, Repr

/-- The all-zero entry a `defaultdict` materializes on first touch. -/
def zeroStats : DepthStats :=
  { positions := 0, checkmates := 0, dead_ends := 0, available_moves := 0,
    initial_moves := 0, safe_moves := 0 }

/-- Get-or-create update of the per-depth statistics map, mirroring
`defaultdict` access: first touch appends a zero entry. -/
def dupdate : List (Nat × DepthStats) → Nat → (DepthStats → DepthStats) →
    List (Nat × DepthStats)
  | [], d, f => [(d, f zeroStats)]
  | (k, s) :: rest, d, f =>
    if k = d then (k, f s) :: rest else (k, s) :: dupdate rest d f

/-- Model of `collect_depth_statistics` (lines 126-140): position counts, checkmate
counts and the two (identical) initial-move sums, per depth. -/
def collect_depth_statistics (tree : Tree) (init : String → Int)
    (st0 : List (Nat × DepthStats)) : List (Nat × DepthStats) :=
  tree.foldl (fun st e =>
    let d := e.2.depth
    let st1 := dupdate st d (fun s => { s with positions := s.positions + 1 })
    let st2 :=
      if e.2.is_checkmate then
        dupdate st1 d (fun s => { s with checkmates := s.checkmates + 1 })
      else st1
    let st3 := dupdate st2 d
      (fun s => { s with available_moves := s.available_moves + init e.1 })
    dupdate st3 d
      (fun s => { s with initial_moves := s.initial_moves + init e.1 })) st0

/-- Model of `build_parent_map` (lines 191-220): keys are exactly the checkmate FENs;
one linear pass over the tree appends `fen` to `parent_map[child]` for every
recorded child that is a checkmate key.  Children come from
`data.get('children', [])`. -/
def build_parent_map (tree : Tree) (checkmates : List String) :
    List (String × List String) :=
  let pm0 : List (String × List String) := checkmates.map (fun f => (f, []))
  tree.foldl (fun pm e =>
    e.2.children.foldl (fun pm2 child =>
      if (alookup pm2 child).isSome then
        pm2.map (fun q => if q.1 = child then (q.1, q.2 ++ [e.1]) else q)
      else pm2) pm) pm0

/-- Model of `find_parent_positions` (lines 222-227): `parent_map.get(fen, [])`. -/
def find_parent_positions (pm : List (String × List String)) (fen : String) :
    List String :=
  (alookup pm fen).getD []

/-- Worklist state of `decrement_from_checkmates` (lines 155-182): the FIFO
`to_process` queue, the `processed` set, the current move counts and the
`dead_ends` set (sets as duplicate-free lists). -/
structure PropState where
  to_process : List String
  processed : List String
  counts : String → Int
  dead_ends : List String

/-- Set-like insert: add only if absent (Python `set.add`). -/
def sinsert (l : List String) (x : String) : List String :=
  if x ∈ l then l else l ++ [x]

/-- Body of the parent loop (lines 171-178): decrement one parent's current
count; when it becomes `<= 0` the parent joins the dead-end set and is pushed
on the queue for further backward propagation. -/
def propDecrement (s : PropState) (p : String) : PropState :=
  let c := s.counts p - 1
  let counts2 : String → Int := fun f => if f = p then c else s.counts f
  if c ≤ 0 then
    { s with counts := counts2, dead_ends := sinsert s.dead_ends p,
             to_process := s.to_process ++ [p] }
  else { s with counts := counts2 }

/-- One iteration of the `while to_process` loop (lines 159-182): pop the
front, skip if already processed, otherwise mark processed and decrement every
parent (via the parent index). -/
def propStep (pm : List (String × List String)) (st : PropState) : PropState :=
  match st.to_process with
  | [] => st
  | bad :: rest =>
    if bad ∈ st.processed then { st with to_process := rest }
    else
      (find_parent_positions pm bad).foldl propDecrement
        { st with to_process := rest, processed := sinsert st.processed bad }

/-- Initial worklist state: queue seeded with the checkmates, counts as
initialized (current = initial). -/
def initPropState (counts0 : String → Int) (checkmates : List String) : PropState :=
  { to_process := checkmates, processed := [], counts := counts0, dead_ends := [] }

/-- Total number of recorded parent edges in the parent index. -/
def pmSize (pm : List (String × List String)) : Nat :=
  (pm.map (fun e => e.2.length)).sum

/-- Model of `decrement_from_checkmates` run to completion.  Every iteration pops one
queue element; pushes are bounded by the seeds plus one push per recorded
parent edge (each key is processed at most once), so
`|checkmates| + pmSize pm + 1` iterations always empty the queue; the step is
the identity from then on. -/
def decrement_from_checkmates (counts0 : String → Int) (pm : List (String × List String))
    (checkmates : List String) : PropState :=
  (propStep pm)^[checkmates.length + pmSize pm + 1] (initPropState counts0 checkmates)

/-- The dead-end depth counting at the end of `decrement_from_checkmates`
(lines 184-187). -/
def addDeadEndStats (tree : Tree) (dead : List String)
    (st : List (Nat × DepthStats)) : List (Nat × DepthStats) :=
  dead.foldl (fun st2 fen =>
    dupdate st2 (((alookup tree fen).map PosData.depth).getD 0)
      (fun s => { s with dead_ends := s.dead_ends + 1 })) st

/-- Model of `collect_final_statistics` (lines 245-250): sum of post-decrement counts
per depth. -/
def collect_final_statistics (tree : Tree) (counts : String → Int)
    (st0 : List (Nat × DepthStats)) : List (Nat × DepthStats) :=
  tree.foldl (fun st e =>
    dupdate st e.2.depth
      (fun s => { s with safe_moves := s.safe_moves + counts e.1 })) st0

/-- Model of `calculate_propagation_depth` (lines 229-243): shallowest dead-end depth,
`none` when there are no dead ends.  (Dead ends always lie in the tree in real
runs; the `getD 0` default models the impossible missing-key case.) -/
def calculate_propagation_depth (tree : Tree) (dead : List String) : Option Nat :=
  match dead.map (fun f => ((alookup tree f).map PosData.depth).getD 0) with
  | [] => none
  | d :: ds => some (ds.foldl min d)

/-- The numeric-or-sentinel ratio value: Python stores either a quotient or
the JSON-safe sentinel string `"Infinity"`. -/
inductive RatioVal : Type
  | num (q : ℚ)
  | infinityStr
deriving DecidableEq, Repr

/-- One per-depth entry of `calculate_dominic_ratio` (lines 263-281). -/
structure DominicEntry where
  available_moves : Int
  checkmates : Nat
  dead_ends : Nat
  barrier_size : Nat
  ratio : RatioVal
deriving DecidableEq, Repr

/-- One per-depth entry of `calculate_refined_ratio` (lines 293-307). -/
structure RefinedEntry where
  safe_moves : Int
  checkmates : Nat
  dead_ends : Nat
  barrier_size : Nat
  ratio : RatioVal
deriving DecidableEq, Repr

/-- Stable sort of the statistics by depth (`sorted(self.depth_stats.items())`). -/
def sortByDepth (l : List (Nat × DepthStats)) : List (Nat × DepthStats) :=
  l.insertionSort (fun a b => a.1 ≤ b.1)

/-- The barrier-ratio entry computed from one depth's statistics: quotient of
available moves by `checkmates + dead_ends`, or the sentinel when the barrier
is zero.  (Python float division is modelled by exact rational division; the
claims concern only the sentinel, not rounding.) -/
def dominicEntry (s : DepthStats) : DominicEntry :=
  let barrier := s.checkmates + s.dead_ends
  { available_moves := s.available_moves, checkmates := s.checkmates,
    dead_ends := s.dead_ends, barrier_size := barrier,
    ratio := if 0 < barrier then
        RatioVal.num ((s.available_moves : ℚ) / (barrier : ℚ))
      else RatioVal.infinityStr }

/-- Model of `calculate_dominic_ratio` (lines 252-283). -/
def calculate_dominic_ratio (stats : List (Nat × DepthStats)) :
    List (Nat × DominicEntry) :=
  (sortByDepth stats).map (fun e => (e.1, dominicEntry e.2))

/-- The refined-ratio entry: post-decrement safe moves over the barrier; a
finite quotient is never `float('inf')`, so the stored value is the quotient
when the barrier is positive and the sentinel otherwise. -/
def refinedEntry (s : DepthStats) : RefinedEntry :=
  let barrier := s.checkmates + s.dead_ends
  { safe_moves := s.safe_moves, checkmates := s.checkmates,
    dead_ends := s.dead_ends, barrier_size := barrier,
    ratio := if 0 < barrier then
        RatioVal.num ((s.safe_moves : ℚ) / (barrier : ℚ))
      else RatioVal.infinityStr }

/-- Model of `calculate_refined_ratio` (lines 285-309). -/
def calculate_refined_ratio (stats : List (Nat × DepthStats)) :
    List (Nat × RefinedEntry) :=
  (sortByDepth stats).map (fun e => (e.1, refinedEntry e.2))

/-- Result record of `analyze` (lines 94-103). -/
structure AnalyzeResult where
  checkmates : List String
  dead_ends : List String
  move_counts : String → Int
  initial_move_counts : String → Int
  propagation_depth : Option Nat
  depth_statistics : List (Nat × DepthStats)
  dominic_ratio : List (Nat × DominicEntry)
  refined_ratio : List (Nat × RefinedEntry)

/-- Model of `RetrogradeAnalyzer.analyze` (lines 46-103): find checkmates, initialize
counts, collect depth statistics, build the parent index, run the decrement
propagation (including its dead-end depth counting), collect final statistics,
and compute both ratio tables. -/
def analyze (O : Oracle) (tree : Tree) : AnalyzeResult :=
  let cms := find_checkmates tree
  let counts0 := initialize_move_counts O tree
  let stats1 := collect_depth_statistics tree counts0 []
  let pm := build_parent_map tree cms
  let fin := decrement_from_checkmates counts0 pm cms
  let stats2 := addDeadEndStats tree fin.dead_ends stats1
  let stats3 := collect_final_statistics tree fin.counts stats2
  { checkmates := cms, dead_ends := fin.dead_ends, move_counts := fin.counts,
    initial_move_counts := counts0,
    propagation_depth := calculate_propagation_depth tree fin.dead_ends,
    depth_statistics := stats3,
    dominic_ratio := calculate_dominic_ratio stats3,
    refined_ratio := calculate_refined_ratio stats3 }

/-! ## Derived notions used to state the claims -/

/-- Replay a move sequence from a position through the Oracle. -/
def replay (O : Oracle) (pos : String) (ms : List String) : String :=
  ms.foldl O.applyMove pos

/-- A move sequence is legal from `pos` when each move is among the Oracle's
legal moves at the position reached so far. -/
def pathLegal (O : Oracle) : String → List String → Bool
  | _, [] => true
  | pos, m :: ms => decide (m ∈ O.legalMoves pos) && pathLegal O (O.applyMove pos m) ms

/-- What one position record looks like after a save/load round trip:
serialization to a table row followed by deserialization. -/
def persistedView (d : PosData) : PosData :=
  loadRecord (rowOf d)

/-! ## Concrete Oracles and position sets used as test inputs -/

/-- A frozen wall clock: every `time.time()` read returns the same instant, so
the two-hour checkpoint interval never elapses during the run. -/
def clk0 : Nat → Nat := fun _ => 0

/-- Three-position game for the parent-index claim: root `r` has the single
move `a` to the non-terminal `p`, and `p` has the single move `b` to the
checkmate `m`. -/
def oracleC1 : Oracle :=
  { legalMoves := fun p => if p = "r" then ["a"] else if p = "p" then ["b"] else [],
    applyMove := fun p m =>
      if p = "r" then (if m = "a" then "p" else "z")
      else if p = "p" then (if m = "b" then "m" else "z")
      else "z",
    isCheckmate := fun p => p == "m",
    isStalemate := fun _ => false,
    isGameOver := fun p => p == "m",
    promoBR := fun _ => false }

/-- The builder's output for `oracleC1` from root `r` to depth 2 (fresh run,
default promotion limiting, no filter hook). -/
def runC1 : RunResult :=
  generate_move_tree oracleC1 "r" 2 false none none true 1 500000 clk0

/-- The PositionSet produced by the tree builder for the parent-index claim. -/
def treeC1 : Tree := runC1.tree

/-- Oracle for the dead-end scenario: the root `R` has exactly one legal move
`x`, which reaches the checkmate `M`; `M` has no continuation. -/
def oracleC2 : Oracle :=
  { legalMoves := fun p => if p = "R" then ["x"] else [],
    applyMove := fun p m => if p = "R" then (if m = "x" then "M" else "z") else "z",
    isCheckmate := fun p => p == "M",
    isStalemate := fun _ => false,
    isGameOver := fun p => p == "M",
    promoBR := fun _ => false }

/-- The scenario position set of §8 exactly as the program shapes it (the
repository's own analyzer test builds the same records): one non-terminal
root `R` whose only child — via its single legal move — is the terminal-loss
position `M`.  Neither the tree builder nor `load_tree` ever writes a
`children` key, so both records carry the empty default that
`data.get('children', [])` yields. -/
def treeC2 : Tree :=
  [("R", { depth := 0, moves := [], is_checkmate := false, is_stalemate := false,
           board := "R", children := [] }),
   ("M", { depth := 1, moves := ["x"], is_checkmate := true, is_stalemate := false,
           board := "M", children := [] })]

/-- Oracle for the resume-equivalence claim: the root's only move reaches `d`,
a position that is game over (e.g. drawn by insufficient material after a
capture) yet neither checkmate nor stalemate, and from which the rule engine
would still generate the move `b` to `x`. -/
def oracleC3 : Oracle :=
  { legalMoves := fun p => if p = "r" then ["a"] else if p = "d" then ["b"] else [],
    applyMove := fun p m =>
      if p = "r" then (if m = "a" then "d" else "z")
      else if p = "d" then (if m = "b" then "x" else "z")
      else "z",
    isCheckmate := fun _ => false,
    isStalemate := fun _ => false,
    isGameOver := fun p => p == "d",
    promoBR := fun _ => false }

/-- Direct exploration of `oracleC3` to depth 2. -/
def runC3direct : RunResult :=
  generate_move_tree oracleC3 "r" 2 false none none true 1 500000 clk0

/-- Exploration of `oracleC3` to depth 1, to be persisted and resumed. -/
def runC3first : RunResult :=
  generate_move_tree oracleC3 "r" 1 false none none true 1 500000 clk0

/-- Resumed exploration to depth 2 from the persisted depth-1 run: the stored
tree and the most recently written Progress Marker are handed back exactly as
`storage.load_tree()` would return them. -/
def runC3resumed : RunResult :=
  generate_move_tree oracleC3 "r" 2 true
    (runC3first.marker.map (fun p => (runC3first.tree, p))) none true 1 500000 clk0

/-- Oracle for the checkpoint claim: the root has two moves, so a single
depth-1 run examines two moves. -/
def oracleC4 : Oracle :=
  { legalMoves := fun p => if p = "r" then ["a", "b"] else [],
    applyMove := fun p m =>
      if p = "r" then (if m = "a" then "s" else if m = "b" then "t" else "z")
      else "z",
    isCheckmate := fun _ => false,
    isStalemate := fun _ => false,
    isGameOver := fun _ => false,
    promoBR := fun _ => false }

/-- Depth-1 run over `oracleC4` with `save_interval_nodes = 1` under a frozen
clock: two moves are examined, so the one-move threshold elapses twice. -/
def runC4 : RunResult :=
  generate_move_tree oracleC4 "r" 1 false none none true 1 1 clk0

/-- Oracle for the no-op-resume counterexample: the root `T` is itself
terminal (checkmate), so it has no legal moves and a depth-1 run stores an
empty positions table together with a marker at depth 1. -/
def oracleC6 : Oracle :=
  { legalMoves := fun _ => [],
    applyMove := fun _ _ => "z",
    isCheckmate := fun p => p == "T",
    isStalemate := fun _ => false,
    isGameOver := fun p => p == "T",
    promoBR := fun _ => false }

/-- Depth-1 exploration of the terminal root `T`: it stores no positions but
writes a marker with `current_depth = 1`. -/
def runC6store : RunResult :=
  generate_move_tree oracleC6 "T" 1 false none none true 1 500000 clk0

/-- Re-invoking with resume at the same target depth 1, handing back exactly
what storage holds after `runC6store` (the empty tree and its marker): the
truthy resume check (`if saved_tree and progress`) sees the empty dict as
falsy, skips both the resume and the no-op early return, and re-explores. -/
def runC6resumed : RunResult :=
  generate_move_tree oracleC6 "T" 1 true
    (runC6store.marker.map (fun p => (runC6store.tree, p))) none true 1 500000 clk0

/-- Minimal oracle for the depth-invariant witness: one move from the root,
and move application never returns the root identity (chess FENs cannot recur
at the root because move counters advance). -/
def oracleC9 : Oracle :=
  { legalMoves := fun p => if p = "r" then ["a"] else [],
    applyMove := fun _ _ => "p",
    isCheckmate := fun _ => false,
    isStalemate := fun _ => false,
    isGameOver := fun _ => false,
    promoBR := fun _ => false }

/-- Oracle for the promotion-pruning witness: the root has a normal move `q`
and a bishop/rook-promotion move `b`. -/
def oracleC10 : Oracle :=
  { legalMoves := fun p => if p = "r" then ["q", "b"] else [],
    applyMove := fun p m =>
      if p = "r" then (if m = "q" then "s" else "t") else "z",
    isCheckmate := fun _ => false,
    isStalemate := fun _ => false,
    isGameOver := fun _ => false,
    promoBR := fun m => m == "b" }

/-! ## Helper lemmas -/

/-- A fold preserves an invariant that every step preserves, given a property
of the folded elements. -/
lemma foldl_preserve_mem {α σ : Type} {I : σ → Prop} {Q : α → Prop} {f : σ → α → σ}
    (h : ∀ s a, I s → Q a → I (f s a)) :
    ∀ (l : List α) (s : σ), (∀ a ∈ l, Q a) → I s → I (l.foldl f s)
  | [], _, _, hs => hs
  | a :: l, s, hl, hs =>
    foldl_preserve_mem h l (f s a) (fun b hb => hl b (List.mem_cons_of_mem a hb))
      (h s a hs (hl a (List.mem_cons_self a l)))

/-- A single parent decrement never increases any current count. -/
lemma propDecrement_counts_le (s : PropState) (p : String) (fen : String) :
    (propDecrement s p).counts fen ≤ s.counts fen := by
  unfold propDecrement
  have hle : (if fen = p then s.counts p - 1 else s.counts fen) ≤ s.counts fen := by
    by_cases hf : fen = p
    · subst hf
      simp
    · simp [hf]
  by_cases h : s.counts p - 1 ≤ 0 <;> simpa [h] using hle

/-- One worklist iteration never increases any current count. -/
lemma propStep_counts_le (pm : List (String × List String)) (s : PropState)
    (fen : String) : (propStep pm s).counts fen ≤ s.counts fen := by
  unfold propStep
  cases hq : s.to_process with
  | nil => exact le_refl _
  | cons bad rest =>
    by_cases hp : bad ∈ s.processed
    · simp [hp]
    · simp only [if_neg hp]
      exact foldl_preserve_mem
        (I := fun s2 : PropState => ∀ f, s2.counts f ≤ s.counts f)
        (Q := fun _ : String => True)
        (fun s2 p h2 _ f => le_trans (propDecrement_counts_le s2 p f) (h2 f))
        (find_parent_positions pm bad)
        { s with to_process := rest, processed := sinsert s.processed bad }
        (fun _ _ => trivial) (fun _ => le_refl _) fen

/-- Counts are pointwise non-increasing along every number of worklist
iterations. -/
lemma propStep_iterate_counts_le (pm : List (String × List String))
    (s : PropState) (n : Nat) (fen : String) :
    ((propStep pm)^[n] s).counts fen ≤ s.counts fen := by
  induction n with
  | zero => exact le_refl _
  | succ n ih =>
    rw [Function.iterate_succ_apply']
    exact le_trans (propStep_counts_le pm ((propStep pm)^[n] s) fen) ih

/-! ## Claim theorems -/

/-- C7.  At every point during the analyzer's decrement propagation — after
any number `n` of worklist iterations started from the state
`initialize_move_counts` produces (current = initial) — every position's
current move count is at most its initial move count, for every parent index
and every seed list. -/
theorem C7_monotonic_counts (O : Oracle) (tree : Tree)
    (pm : List (String × List String)) (cms : List String) (n : Nat) (fen : String) :
    ((propStep pm)^[n] (initPropState (initialize_move_counts O tree) cms)).counts fen ≤
      initialize_move_counts O tree fen :=
  propStep_iterate_counts_le pm (initPropState (initialize_move_counts O tree) cms) n fen

/-- C5.  Any depth whose statistics show `checkmates + dead_ends = 0` receives
the sentinel ratio value (the JSON-safe string `"Infinity"`) in both the
barrier-ratio and the refined-ratio tables: its entry is present, is never a
numeric value, and is produced totally (no fault). -/
theorem C5_ratio_sentinel (stats : List (Nat × DepthStats)) (d : Nat)
    (s : DepthStats) (hmem : (d, s) ∈ stats) (hz : s.checkmates + s.dead_ends = 0) :
    (d, dominicEntry s) ∈ calculate_dominic_ratio stats ∧
    (dominicEntry s).ratio = RatioVal.infinityStr ∧
    (d, refinedEntry s) ∈ calculate_refined_ratio stats ∧
    (refinedEntry s).ratio = RatioVal.infinityStr := by
  have hsort : (d, s) ∈ sortByDepth stats := by
    unfold sortByDepth
    exact ((List.perm_insertionSort _ stats).mem_iff).mpr hmem
  have hzero : ¬ 0 < s.checkmates + s.dead_ends := by omega
  refine ⟨?_, ?_, ?_, ?_⟩
  · exact List.mem_map_of_mem (fun e => (e.1, dominicEntry e.2)) hsort
  · simp [dominicEntry, hzero]
  · exact List.mem_map_of_mem (fun e => (e.1, refinedEntry e.2)) hsort
  · simp [refinedEntry, hzero]

/-- Witness for C5 at the concrete statistics table `[(2, zeroStats)]`. -/
theorem C5_ratio_sentinel_witness :
    (2, dominicEntry zeroStats) ∈ calculate_dominic_ratio [(2, zeroStats)] ∧
    (dominicEntry zeroStats).ratio = RatioVal.infinityStr ∧
    (2, refinedEntry zeroStats) ∈ calculate_refined_ratio [(2, zeroStats)] ∧
    (refinedEntry zeroStats).ratio = RatioVal.infinityStr :=
  C5_ratio_sentinel [(2, zeroStats)] 2 zeroStats (List.mem_singleton.mpr rfl) rfl

/-- C1 (refuted).  On the PositionSet `treeC1` actually produced by the tree
builder, the terminal-loss position `m` has an in-set one-ply parent: `p` is
in the set, `b` is a legal move at `p`, and applying it reaches `m`.  Yet the
parent index of Phase B maps `m` to the empty parent list, because it is built
from `data.get('children', [])` and the builder never records a `children`
key.  The repository's own analyzer tests assert the opposite behavior. -/
theorem C1_parent_index_counterexample :
    find_checkmates treeC1 = ["m"] ∧
    (alookup treeC1 "p").isSome = true ∧
    (alookup treeC1 "m").map PosData.is_checkmate = some true ∧
    "b" ∈ oracleC1.legalMoves "p" ∧
    oracleC1.applyMove "p" "b" = "m" ∧
    find_parent_positions (build_parent_map treeC1 (find_checkmates treeC1)) "m" = [] := by
  decide

/-- C2 (refuted).  On the §8 scenario set `treeC2` as the program actually
shapes it — a non-terminal root `R` whose single legal move reaches its only
child, the terminal-loss position `M`, with no record carrying a `children`
key because no component ever writes one — `analyze` leaves the root's
current count at its initial 1 and the dead-end set empty: the decrement
never fires, because the parent index built from `data.get('children', [])`
maps `M` to no parents (the same missing-edge defect as the parent-index
claim).  The claim (and the repository's own `test_decrement_logic`) demand
the count drop to 0 and `R` enter the dead-end set. -/
theorem C2_decrement_never_fires :
    oracleC2.legalMoves "R" = ["x"] ∧
    oracleC2.applyMove "R" "x" = "M" ∧
    (alookup treeC2 "M").map PosData.is_checkmate = some true ∧
    (alookup treeC2 "R").map PosData.is_checkmate = some false ∧
    (alookup treeC2 "R").map PosData.is_stalemate = some false ∧
    (analyze oracleC2 treeC2).initial_move_counts "R" = 1 ∧
    (analyze oracleC2 treeC2).move_counts "R" = 1 ∧
    (analyze oracleC2 treeC2).dead_ends = [] := by
  decide

/-- C3 (refuted).  Exploring `oracleC3` directly to depth 2 is NOT equivalent
to exploring to depth 1, persisting, and resuming to depth 2: position `d` is
game over (but neither checkmate nor stalemate), so the direct run never
expands it, while the resume frontier filter — which only excludes checkmate
and stalemate — re-expands it, adding `x` to the resumed PositionSet. -/
theorem C3_resume_not_equivalent :
    oracleC3.isGameOver "d" = true ∧
    oracleC3.isCheckmate "d" = false ∧
    oracleC3.isStalemate "d" = false ∧
    alookup runC3direct.tree "x" = none ∧
    (alookup runC3resumed.tree "x").isSome = true ∧
    runC3direct.tree ≠ runC3resumed.tree := by
  decide

/-- C4 (refuted).  The configurable move-count threshold never triggers a
save: the run result is definitionally independent of `save_interval_nodes`
(the parameter is accepted but never read), and concretely, a depth-1 run
over `oracleC4` with threshold 1 under a frozen clock examines 2 moves yet
performs zero out-of-band (mid-depth) saves. -/
theorem C4_node_threshold_never_triggers :
    (∀ (O : Oracle) (startFen : String) (maxDepth : Nat) (resume : Bool)
       (stored : Option (Tree × Progress)) (det : Option (String → String → Bool))
       (lp : Bool) (saveInterval n1 n2 : Nat) (clock : Nat → Nat),
       generate_move_tree O startFen maxDepth resume stored det lp saveInterval n1 clock =
       generate_move_tree O startFen maxDepth resume stored det lp saveInterval n2 clock) ∧
    runC4.analyzed = 2 ∧
    runC4.midSaves = 0 :=
  ⟨fun _ _ _ _ _ _ _ _ _ _ _ => rfl, by decide, by decide⟩

/-- C6 (amended).  Invoking the builder with resume when the stored tree is
non-empty, its marker matches the root, and its last completed depth is at
least the target depth returns the stored PositionSet unchanged and makes
zero Oracle calls (no legal-move generation, no move application): the early
return fires before any expansion.  The non-emptiness proviso is forced by
the counterexample below: for an empty stored set the truthy resume check
skips both the resume and the no-op early return, and the builder
re-explores. -/
theorem C6_resume_noop (O : Oracle) (root : String) (maxd : Nat) (t : Tree)
    (p : Progress) (det : Option (String → String → Bool)) (lp : Bool)
    (si sin : Nat) (clk : Nat → Nat)
    (hne : t ≠ []) (hfen : p.starting_fen = root) (hd : maxd ≤ p.current_depth) :
    (generate_move_tree O root maxd true (some (t, p)) det lp si sin clk).tree = t ∧
    (generate_move_tree O root maxd true (some (t, p)) det lp si sin clk).calls = 0 := by
  have hlt : maxd < p.current_depth + 1 := Nat.lt_succ_of_le hd
  simp [generate_move_tree, resumeInit, hne, hfen, hlt]

/-- Witness for C6: resuming at target depth 2 against a stored marker at
depth 3 returns the stored set `treeC2` untouched with zero Oracle calls. -/
theorem C6_resume_noop_witness :
    (generate_move_tree oracleC4 "root" 2 true
      (some (treeC2, { starting_fen := "root", current_depth := 3, max_depth := 5,
                       positions_analyzed := 7 })) none true 1 500000 clk0).tree = treeC2 ∧
    (generate_move_tree oracleC4 "root" 2 true
      (some (treeC2, { starting_fen := "root", current_depth := 3, max_depth := 5,
                       positions_analyzed := 7 })) none true 1 500000 clk0).calls = 0 :=
  C6_resume_noop oracleC4 "root" 2 treeC2
    { starting_fen := "root", current_depth := 3, max_depth := 5, positions_analyzed := 7 }
    none true 1 500000 clk0 (by decide) rfl (by decide)

/-- Counterexample refuting C6 as originally stated: a terminal root `T`
explored to depth 1 stores an empty positions table with a marker whose
last-completed-depth equals the target; re-invoking with resume at the same
target hands back the stored (empty) set and matching marker, yet the run
makes one Oracle call (the root's legal-move generation) instead of zero —
the truthy resume check treats the empty dict as "nothing saved". -/
theorem C6_resume_noop_counterexample :
    runC6store.tree = [] ∧
    runC6store.marker = some { starting_fen := "T", current_depth := 1,
                               max_depth := 1, positions_analyzed := 0 } ∧
    runC6resumed.tree = runC6store.tree ∧
    runC6resumed.calls = 1 ∧
    runC6resumed.calls ≠ 0 := by
  decide

/-- Lookup through a value-mapping of an association list. -/
lemma alookup_map {β γ : Type} (g : β → γ) :
    ∀ (l : List (String × β)) (k : String),
      alookup (l.map (fun e => (e.1, g e.2))) k = (alookup l k).map g
  | [], _ => rfl
  | (k', v) :: rest, k => by
    by_cases h : k' = k <;> simp [alookup, h, alookup_map g rest k]

/-- A successful lookup comes from a member of the list. -/
lemma alookup_some_mem {β : Type} :
    ∀ {l : List (String × β)} {k : String} {v : β},
      alookup l k = some v → (k, v) ∈ l := by
  intro l
  induction l with
  | nil => intro k v h; simp [alookup] at h
  | cons e rest ih =>
    intro k v h
    by_cases he : e.1 = k
    · rcases e with ⟨k', v'⟩
      simp only [alookup, if_pos he] at h
      cases he
      cases h
      exact List.mem_cons_self _ _
    · rcases e with ⟨k', v'⟩
      simp only [alookup, if_neg he] at h
      exact List.mem_cons_of_mem _ (ih h)

/-- Lookup fails exactly when the key is absent from the key list. -/
lemma alookup_eq_none_iff {β : Type} :
    ∀ (l : List (String × β)) (k : String), alookup l k = none ↔ k ∉ akeys l := by
  intro l
  induction l with
  | nil => intro k; simp [alookup, akeys]
  | cons e rest ih =>
    intro k
    rcases e with ⟨k', v⟩
    by_cases he : k' = k
    · subst he
      constructor
      · intro h; simp [alookup] at h
      · intro h; exact absurd (List.mem_cons_self _ _) h
    · have hstep : alookup ((k', v) :: rest) k = alookup rest k := by
        simp [alookup, he]
      rw [hstep, ih k]
      constructor
      · intro h hm
        rcases List.mem_cons.mp hm with h1 | h2
        · exact he h1.symm
        · exact h h2
      · intro h hm
        exact h (List.mem_cons_of_mem _ hm)

/-- Upserting a row makes it the value at its key. -/
lemma upsertRow_lookup_self : ∀ (l : List (String × Row)) (k : String) (r : Row),
    alookup (upsertRow l k r) k = some r
  | [], k, r => by simp [upsertRow, alookup]
  | (k', r') :: rest, k, r => by
    by_cases h : k' = k <;>
      simp [upsertRow, alookup, h, upsertRow_lookup_self rest k r]

/-- Upserting a row leaves every other key's value unchanged. -/
lemma upsertRow_lookup_ne : ∀ (l : List (String × Row)) (k : String) (r : Row)
    (k2 : String), k2 ≠ k → alookup (upsertRow l k r) k2 = alookup l k2 := by
  intro l
  induction l with
  | nil =>
    intro k r k2 h
    have hne : ¬ k = k2 := fun hh => h hh.symm
    simp [upsertRow, alookup, hne]
  | cons e rest ih =>
    intro k r k2 h
    rcases e with ⟨k', r'⟩
    by_cases hk : k' = k
    · subst hk
      have hne : ¬ k' = k2 := fun hh => h hh.symm
      simp [upsertRow, alookup, hne]
    · by_cases hk2 : k' = k2
      · subst hk2
        simp [upsertRow, alookup, hk]
      · simp [upsertRow, alookup, hk, hk2, ih k r k2 h]

/-- Upserting the value a key already holds is the identity. -/
lemma upsertRow_self : ∀ {l : List (String × Row)} {k : String} {r : Row},
    alookup l k = some r → upsertRow l k r = l := by
  intro l
  induction l with
  | nil => intro k r h; simp [alookup] at h
  | cons e rest ih =>
    intro k r h
    rcases e with ⟨k', r'⟩
    by_cases hk : k' = k
    · subst hk
      simp only [alookup, if_pos rfl] at h
      cases h
      simp [upsertRow]
    · simp only [alookup, if_neg hk] at h
      simp [upsertRow, hk, ih h]

/-- Folding the per-record upserts of `save_tree` does not touch keys outside
the saved tree. -/
lemma saveFold_lookup_notmem : ∀ (tree : Tree) (ps : List (String × Row)) (fen : String),
    fen ∉ akeys tree →
    alookup (tree.foldl (fun ps e => upsertRow ps e.1 (rowOf e.2)) ps) fen = alookup ps fen
  | [], _, _, _ => rfl
  | e :: rest, ps, fen, h => by
    have h1 : fen ∉ akeys rest := fun hm => h (List.mem_cons_of_mem e.1 hm)
    have h2 : fen ≠ e.1 := fun hm => h (by
      rw [hm]
      exact List.mem_cons_self e.1 (akeys rest))
    simp only [List.foldl_cons]
    rw [saveFold_lookup_notmem rest _ fen h1, upsertRow_lookup_ne ps e.1 (rowOf e.2) fen h2]

/-- After `save_tree`'s upsert pass, every saved record's key holds its
serialized row (keys of a Python dict are unique). -/
lemma saveFold_lookup_mem : ∀ (tree : Tree) (ps : List (String × Row)) (fen : String)
    (d : PosData), (akeys tree).Nodup → (fen, d) ∈ tree →
    alookup (tree.foldl (fun ps e => upsertRow ps e.1 (rowOf e.2)) ps) fen = some (rowOf d)
  | [], _, _, _, _, hmem => by simp at hmem
  | e :: rest, ps, fen, d, hnodup, hmem => by
    have hnc : e.1 ∉ akeys rest ∧ (akeys rest).Nodup :=
      List.nodup_cons.mp (show (e.1 :: akeys rest).Nodup from hnodup)
    simp only [List.foldl_cons]
    rcases List.mem_cons.mp hmem with heq | htail
    · cases heq
      rw [saveFold_lookup_notmem rest _ fen hnc.1, upsertRow_lookup_self]
    · exact saveFold_lookup_mem rest _ fen d hnc.2 htail

/-- Re-running the upsert pass over a table that already holds every record's
row is the identity. -/
lemma saveFold_fix : ∀ (tree : Tree) (ps : List (String × Row)),
    (∀ k d, (k, d) ∈ tree → alookup ps k = some (rowOf d)) →
    tree.foldl (fun ps e => upsertRow ps e.1 (rowOf e.2)) ps = ps
  | [], _, _ => rfl
  | e :: rest, ps, h => by
    simp only [List.foldl_cons]
    rw [upsertRow_self (h e.1 e.2 (by simp)), saveFold_fix rest ps
      (fun k d hm => h k d (List.mem_cons_of_mem e hm))]

/-- C8.  Saving a tree (with the unique keys a Python dict guarantees) into a
store whose position rows all belong to the tree, then loading, returns
exactly the saved PositionSet up to the persisted view — identical identity,
depth, move sequence and both terminal flags for every key, and no extra
keys; the write is idempotent on identity (a second save of the same tree
leaves the positions table literally unchanged); and the Progress Marker
returned by the load is the most recently written one. -/
theorem C8_save_load_round_trip (s : StorageState) (tree : Tree) (f : String)
    (cd md pa : Nat) (f2 : String) (cd2 md2 pa2 : Nat)
    (hnodup : (akeys tree).Nodup)
    (hkeys : ∀ k, k ∈ akeys s.positions → k ∈ akeys tree) :
    load_tree (save_tree s tree f cd md pa) =
      some ((save_tree s tree f cd md pa).positions.map (fun e => (e.1, loadRecord e.2)),
            { starting_fen := f, current_depth := cd, max_depth := md,
              positions_analyzed := pa }) ∧
    (∀ fen, alookup ((save_tree s tree f cd md pa).positions.map
        (fun e => (e.1, loadRecord e.2))) fen = (alookup tree fen).map persistedView) ∧
    (∀ d : PosData, (persistedView d).depth = d.depth ∧
        (persistedView d).moves = d.moves ∧
        (persistedView d).is_checkmate = d.is_checkmate ∧
        (persistedView d).is_stalemate = d.is_stalemate) ∧
    (save_tree (save_tree s tree f cd md pa) tree f2 cd2 md2 pa2).positions =
      (save_tree s tree f cd md pa).positions := by
  refine ⟨?_, ?_, ?_, ?_⟩
  · simp [load_tree, save_tree, List.getLast?_concat]
  · intro fen
    rw [alookup_map]
    cases h : alookup tree fen with
    | some d =>
      have hm := alookup_some_mem h
      simp [save_tree, saveFold_lookup_mem tree s.positions fen d hnodup hm, persistedView]
    | none =>
      have hnt : fen ∉ akeys tree := (alookup_eq_none_iff tree fen).mp h
      have hns : fen ∉ akeys s.positions := fun hm => hnt (hkeys fen hm)
      simp [save_tree, saveFold_lookup_notmem tree s.positions fen hnt,
        (alookup_eq_none_iff s.positions fen).mpr hns]
  · intro d
    cases hb : d.is_checkmate <;> cases hb2 : d.is_stalemate <;>
      simp [persistedView, loadRecord, rowOf, hb, hb2]
  · simp only [save_tree]
    exact saveFold_fix tree _
      (fun k d hm => saveFold_lookup_mem tree s.positions k d hnodup hm)

/-- Witness for C8: an empty store, the scenario set `treeC2`, and the key
`R`; the loaded record at `R` is the persisted view of the saved record. -/
theorem C8_save_load_round_trip_witness :
    alookup ((save_tree { positions := [], progress := [] } treeC2 "f0" 1 2 3).positions.map
      (fun e => (e.1, loadRecord e.2))) "R" = (alookup treeC2 "R").map persistedView :=
  (C8_save_load_round_trip { positions := [], progress := [] } treeC2 "f0" 1 2 3
    "f1" 4 5 6 (by decide) (fun k h => absurd h (by simp [akeys]))).2.1 "R"

/-- The clock checkpoint touches only the save counters, not the tree. -/
lemma clockCheck_tree (clk : Nat → Nat) (st : BfsState) :
    (clockCheck clk st).tree = st.tree := by
  unfold clockCheck
  dsimp only
  split <;> rfl

/-- The clock checkpoint does not touch the next frontier either. -/
lemma clockCheck_next_level (clk : Nat → Nat) (st : BfsState) :
    (clockCheck clk st).next_level = st.next_level := by
  unfold clockCheck
  dsimp only
  split <;> rfl

/-- Invariant preservation through one `expandMove` step: a record predicate
`P` holds of every tree entry and a frontier predicate `Hh` of every queued
(board, history) pair, provided every freshly derived position (reached by a
legal move that survives the promotion guard) satisfies both. -/
lemma expandMove_inv (O : Oracle) (lp : Bool) (det : Option (String → String → Bool))
    (clk : Nat → Nat) (depth : Nat)
    (P : String → PosData → Prop) (Hh : String → List String → Prop)
    (hnew : ∀ board hist mv, Hh board hist → mv ∈ O.legalMoves board →
      (lp && O.promoBR mv) = false →
      P (O.applyMove board mv)
        { depth := depth, moves := hist ++ [mv],
          is_checkmate := O.isCheckmate (O.applyMove board mv),
          is_stalemate := O.isStalemate (O.applyMove board mv),
          board := O.applyMove board mv, children := [] } ∧
      Hh (O.applyMove board mv) (hist ++ [mv]))
    (st : BfsState) (board : String) (hist : List String) (mv : String)
    (hmv : mv ∈ O.legalMoves board)
    (hT : ∀ k d, (k, d) ∈ st.tree → P k d)
    (hN : ∀ e ∈ st.next_level, Hh e.1 e.2)
    (hH : Hh board hist) :
    (∀ k d, (k, d) ∈ (expandMove O lp det clk depth board hist st mv).tree → P k d) ∧
    (∀ e ∈ (expandMove O lp det clk depth board hist st mv).next_level, Hh e.1 e.2) := by
  unfold expandMove
  by_cases hpr : (lp && O.promoBR mv) = true
  · rw [if_pos hpr]
    exact ⟨hT, hN⟩
  · rw [if_neg hpr]
    have hg : (lp && O.promoBR mv) = false := by
      cases h : lp && O.promoBR mv
      · rfl
      · exact absurd h hpr
    obtain ⟨hPnew, hHnew⟩ := hnew board hist mv hH hmv hg
    by_cases hdet : (match det with
        | some f => !(f board mv)
        | none => false) = true
    · rw [if_pos hdet]
      exact ⟨hT, hN⟩
    · rw [if_neg hdet]
      dsimp only
      rw [clockCheck_tree, clockCheck_next_level]
      by_cases hlk : (alookup st.tree (O.applyMove board mv)).isSome = true
      · rw [if_pos hlk]
        exact ⟨hT, hN⟩
      · rw [if_neg hlk]
        by_cases hgo : O.isGameOver (O.applyMove board mv) = true
        · rw [if_pos hgo]
          refine ⟨?_, hN⟩
          intro k d hm
          rcases List.mem_append.mp hm with hold | hnewm
          · exact hT k d hold
          · have h2 := List.mem_singleton.mp hnewm
            injection h2 with hk hd
            subst hk
            subst hd
            exact hPnew
        · rw [if_neg hgo]
          constructor
          · intro k d hm
            rcases List.mem_append.mp hm with hold | hnewm
            · exact hT k d hold
            · have h2 := List.mem_singleton.mp hnewm
              injection h2 with hk hd
              subst hk
              subst hd
              exact hPnew
          · intro e hm
            rcases List.mem_append.mp hm with hold | hnewm
            · exact hN e hold
            · have h2 := List.mem_singleton.mp hnewm
              subst h2
              exact hHnew

/-- Invariant preservation through one frontier position of the BFS level. -/
lemma processParent_inv (O : Oracle) (lp : Bool) (det : Option (String → String → Bool))
    (clk : Nat → Nat) (depth : Nat)
    (P : String → PosData → Prop) (Hh : String → List String → Prop)
    (hnew : ∀ board hist mv, Hh board hist → mv ∈ O.legalMoves board →
      (lp && O.promoBR mv) = false →
      P (O.applyMove board mv)
        { depth := depth, moves := hist ++ [mv],
          is_checkmate := O.isCheckmate (O.applyMove board mv),
          is_stalemate := O.isStalemate (O.applyMove board mv),
          board := O.applyMove board mv, children := [] } ∧
      Hh (O.applyMove board mv) (hist ++ [mv]))
    (st : BfsState) (parent : String × List String)
    (hT : ∀ k d, (k, d) ∈ st.tree → P k d)
    (hN : ∀ e ∈ st.next_level, Hh e.1 e.2)
    (hH : Hh parent.1 parent.2) :
    (∀ k d, (k, d) ∈ (processParent O lp det clk depth st parent).tree → P k d) ∧
    (∀ e ∈ (processParent O lp det clk depth st parent).next_level, Hh e.1 e.2) := by
  unfold processParent
  exact foldl_preserve_mem
    (I := fun s : BfsState =>
      (∀ k d, (k, d) ∈ s.tree → P k d) ∧ (∀ e ∈ s.next_level, Hh e.1 e.2))
    (Q := fun mv => mv ∈ O.legalMoves parent.1)
    (fun s mv hs hq =>
      expandMove_inv O lp det clk depth P Hh hnew s parent.1 parent.2 mv hq hs.1 hs.2 hH)
    (O.legalMoves parent.1) _ (fun a ha => ha) ⟨hT, hN⟩

/-- Invariant preservation through the whole per-depth loop: if every depth
at least 1 derives only good records, the loop started at a depth at least 1
with a good tree and frontier yields a tree of good records. -/
lemma bfsLoop_inv (O : Oracle) (lp : Bool) (det : Option (String → String → Bool))
    (clk : Nat → Nat) (si : Nat)
    (P : String → PosData → Prop) (Hh : String → List String → Prop)
    (hnew : ∀ depth, 1 ≤ depth → ∀ board hist mv, Hh board hist →
      mv ∈ O.legalMoves board → (lp && O.promoBR mv) = false →
      P (O.applyMove board mv)
        { depth := depth, moves := hist ++ [mv],
          is_checkmate := O.isCheckmate (O.applyMove board mv),
          is_stalemate := O.isStalemate (O.applyMove board mv),
          board := O.applyMove board mv, children := [] } ∧
      Hh (O.applyMove board mv) (hist ++ [mv])) :
    ∀ (remaining depth : Nat) (st : BfsState) (level : List (String × List String)),
    1 ≤ depth →
    (∀ k d, (k, d) ∈ st.tree → P k d) →
    (∀ e ∈ level, Hh e.1 e.2) →
    ∀ k d, (k, d) ∈ (bfsLoop O lp det clk si st level depth remaining).tree → P k d := by
  intro remaining
  induction remaining with
  | zero => intro depth st level _ hT _ k d hm; exact hT k d hm
  | succ remaining ih =>
    intro depth st level hdep hT hL k d hm
    rw [bfsLoop] at hm
    have hfold :
        (∀ k2 d2, (k2, d2) ∈ (level.foldl (processParent O lp det clk depth)
            { st with next_level := [] }).tree → P k2 d2) ∧
        (∀ e ∈ (level.foldl (processParent O lp det clk depth)
            { st with next_level := [] }).next_level, Hh e.1 e.2) :=
      foldl_preserve_mem
        (I := fun s : BfsState =>
          (∀ k2 d2, (k2, d2) ∈ s.tree → P k2 d2) ∧ (∀ e ∈ s.next_level, Hh e.1 e.2))
        (Q := fun e : String × List String => Hh e.1 e.2)
        (fun s e hs hq =>
          processParent_inv O lp det clk depth P Hh (hnew depth hdep) s e hs.1 hs.2 hq)
        level { st with next_level := [] } hL ⟨hT, by intro e he; simp at he⟩
    set st1 := level.foldl (processParent O lp det clk depth) { st with next_level := [] }
    have hst2 :
        (∀ k2 d2, (k2, d2) ∈ (if depth % si = 0 then
            { st1 with depthSaves := st1.depthSaves + 1 } else st1).tree → P k2 d2) ∧
        (∀ e ∈ (if depth % si = 0 then
            { st1 with depthSaves := st1.depthSaves + 1 } else st1).next_level, Hh e.1 e.2) := by
      split <;> exact hfold
    set st2 := if depth % si = 0 then { st1 with depthSaves := st1.depthSaves + 1 } else st1
    by_cases hempty : st2.next_level = []
    · rw [if_pos hempty] at hm
      exact hst2.1 k d hm
    · rw [if_neg hempty] at hm
      exact ih (depth + 1) st2 st2.next_level (by omega) hst2.1 hst2.2 k d hm

/-- The resume initialization yields a start depth of at least 1 and an
initial tree of good records whenever the stored tree has good records. -/
lemma resumeInit_inv (P : String → PosData → Prop) (resume : Bool)
    (stored : Option (Tree × Progress)) (root : String)
    (hstored : ∀ t p, stored = some (t, p) → ∀ k d, (k, d) ∈ t → P k d) :
    (∀ k d, (k, d) ∈ (resumeInit resume stored root).2.1 → P k d) ∧
    1 ≤ (resumeInit resume stored root).1 := by
  unfold resumeInit
  by_cases hr : resume = true
  · rw [if_pos hr]
    cases stored with
    | none => exact ⟨fun k d hm => absurd hm (List.not_mem_nil _), Nat.le.refl⟩
    | some tp =>
      rcases tp with ⟨t, p⟩
      dsimp only
      by_cases ht : t = ([] : Tree)
      · rw [if_pos ht]
        exact ⟨fun k d hm => absurd hm (List.not_mem_nil _), Nat.le.refl⟩
      · rw [if_neg ht]
        by_cases hf : p.starting_fen = root
        · rw [if_pos hf]
          exact ⟨fun k d hm => hstored t p rfl k d hm,
            Nat.succ_le_succ (Nat.zero_le _)⟩
        · rw [if_neg hf]
          exact ⟨fun k d hm => absurd hm (List.not_mem_nil _), Nat.le.refl⟩
  · rw [if_neg hr]
    exact ⟨fun k d hm => absurd hm (List.not_mem_nil _), Nat.le.refl⟩

/-- Appending one move to a replayed sequence applies it at the end. -/
lemma replay_snoc (O : Oracle) (pos : String) (ms : List String) (m : String) :
    replay O pos (ms ++ [m]) = O.applyMove (replay O pos ms) m := by
  unfold replay
  rw [List.foldl_append]
  rfl

/-- A legal path stays legal after appending a move that is legal at its end
position. -/
lemma pathLegal_snoc (O : Oracle) : ∀ (ms : List String) (pos m : String),
    pathLegal O pos ms = true → m ∈ O.legalMoves (replay O pos ms) →
    pathLegal O pos (ms ++ [m]) = true
  | [], pos, m, _, hc => by
    simp only [List.nil_append, pathLegal]
    simp [replay] at hc
    simp [hc]
  | m0 :: ms, pos, m, hp, hc => by
    simp only [pathLegal, Bool.and_eq_true] at hp
    simp only [List.cons_append, pathLegal, Bool.and_eq_true]
    exact ⟨hp.1, pathLegal_snoc O ms (O.applyMove pos m0) m hp.2 hc⟩

/-- Membership in a `dupdate` result comes from the updated key or from the
original table. -/
lemma dupdate_mem : ∀ (l : List (Nat × DepthStats)) (d : Nat)
    (f : DepthStats → DepthStats) (dep : Nat) (s : DepthStats),
    (dep, s) ∈ dupdate l d f → dep = d ∨ ∃ s2, (dep, s2) ∈ l
  | [], d, f, dep, s, h => by
    simp [dupdate] at h
    exact Or.inl h.1
  | (k, s0) :: rest, d, f, dep, s, h => by
    unfold dupdate at h
    by_cases hk : k = d
    · rw [if_pos hk] at h
      rcases List.mem_cons.mp h with h1 | h2
      · injection h1 with e1 _
        exact Or.inl (e1.trans hk)
      · exact Or.inr ⟨s, List.mem_cons_of_mem _ h2⟩
    · rw [if_neg hk] at h
      rcases List.mem_cons.mp h with h1 | h2
      · injection h1 with e1 e2
        subst e1
        exact Or.inr ⟨s0, List.mem_cons_self _ _⟩
      · rcases dupdate_mem rest d f dep s h2 with h3 | ⟨s2, h4⟩
        · exact Or.inl h3
        · exact Or.inr ⟨s2, List.mem_cons_of_mem _ h4⟩

/-- Every depth present in the statistics collected over a tree is either a
depth already present initially or the depth of some tree record. -/
lemma collect_depth_statistics_mem : ∀ (tree : Tree) (init : String → Int)
    (st0 : List (Nat × DepthStats)) (dep : Nat) (s : DepthStats),
    (dep, s) ∈ collect_depth_statistics tree init st0 →
    (∃ s2, (dep, s2) ∈ st0) ∨ ∃ k d, (k, d) ∈ tree ∧ d.depth = dep
  | [], _, st0, dep, s, h => Or.inl ⟨s, h⟩
  | e :: rest, init, st0, dep, s, h => by
    have h2 : (dep, s) ∈ collect_depth_statistics rest init
        (dupdate (dupdate (if e.2.is_checkmate then
            dupdate (dupdate st0 e.2.depth (fun s => { s with positions := s.positions + 1 }))
              e.2.depth (fun s => { s with checkmates := s.checkmates + 1 })
          else dupdate st0 e.2.depth (fun s => { s with positions := s.positions + 1 }))
          e.2.depth (fun s => { s with available_moves := s.available_moves + init e.1 }))
          e.2.depth (fun s => { s with initial_moves := s.initial_moves + init e.1 })) := h
    rcases collect_depth_statistics_mem rest init _ dep s h2 with ⟨s2, hs2⟩ | ⟨k, d, hm, hd⟩
    · rcases dupdate_mem _ _ _ _ _ hs2 with h3 | ⟨s3, hs3⟩
      · exact Or.inr ⟨e.1, e.2, List.mem_cons_self _ _, h3.symm⟩
      · rcases dupdate_mem _ _ _ _ _ hs3 with h4 | ⟨s4, hs4⟩
        · exact Or.inr ⟨e.1, e.2, List.mem_cons_self _ _, h4.symm⟩
        · by_cases hc : e.2.is_checkmate = true
          · rw [if_pos hc] at hs4
            rcases dupdate_mem _ _ _ _ _ hs4 with h5 | ⟨s5, hs5⟩
            · exact Or.inr ⟨e.1, e.2, List.mem_cons_self _ _, h5.symm⟩
            · rcases dupdate_mem _ _ _ _ _ hs5 with h6 | ⟨s6, hs6⟩
              · exact Or.inr ⟨e.1, e.2, List.mem_cons_self _ _, h6.symm⟩
              · exact Or.inl ⟨s6, hs6⟩
          · rw [if_neg hc] at hs4
            rcases dupdate_mem _ _ _ _ _ hs4 with h5 | ⟨s5, hs5⟩
            · exact Or.inr ⟨e.1, e.2, List.mem_cons_self _ _, h5.symm⟩
            · exact Or.inl ⟨s5, hs5⟩
    · exact Or.inr ⟨k, d, List.mem_cons_of_mem _ hm, hd⟩

/-- Invariant preservation through one `simpleExpand` step of the simple
builder. -/
lemma simpleExpand_inv (O : Oracle) (board : String) (depth : Nat)
    (hist : List String) (P : String → PosData → Prop)
    (Hq : String → Nat → List String → Prop)
    (hnew : ∀ mv, mv ∈ O.legalMoves board → O.promoBR mv = false →
      P (O.applyMove board mv)
        { depth := depth + 1, moves := hist ++ [mv],
          is_checkmate := O.isCheckmate (O.applyMove board mv),
          is_stalemate := O.isStalemate (O.applyMove board mv),
          board := O.applyMove board mv, children := [] } ∧
      Hq (O.applyMove board mv) (depth + 1) (hist ++ [mv]))
    (acc : Tree × List (String × Nat × List String)) (mv : String)
    (hmv : mv ∈ O.legalMoves board)
    (hT : ∀ k d, (k, d) ∈ acc.1 → P k d)
    (hQ : ∀ q ∈ acc.2, Hq q.1 q.2.1 q.2.2) :
    (∀ k d, (k, d) ∈ (simpleExpand O board depth hist acc mv).1 → P k d) ∧
    (∀ q ∈ (simpleExpand O board depth hist acc mv).2, Hq q.1 q.2.1 q.2.2) := by
  unfold simpleExpand
  by_cases hpr : O.promoBR mv = true
  · rw [if_pos hpr]
    exact ⟨hT, hQ⟩
  · have hg : O.promoBR mv = false := by
      cases h : O.promoBR mv
      · rfl
      · exact absurd h hpr
    rw [if_neg hpr]
    dsimp only
    obtain ⟨hP, hQ2⟩ := hnew mv hmv hg
    by_cases hlk : (alookup acc.1 (O.applyMove board mv)).isSome = true
    · rw [if_pos hlk]
      exact ⟨hT, hQ⟩
    · rw [if_neg hlk]
      constructor
      · intro k d hm
        rcases List.mem_append.mp hm with hold | hnewm
        · exact hT k d hold
        · have h2 := List.mem_singleton.mp hnewm
          injection h2 with hk hd
          subst hk
          subst hd
          exact hP
      · intro q hm
        by_cases hgo : O.isGameOver (O.applyMove board mv) = true
        · rw [if_pos hgo] at hm
          exact hQ q hm
        · rw [if_neg hgo] at hm
          rcases List.mem_append.mp hm with hold | hnewm
          · exact hQ q hold
          · have h2 := List.mem_singleton.mp hnewm
            subst h2
            exact hQ2

/-- Invariant preservation through the whole simple-builder loop, for every
amount of fuel. -/
lemma simpleLoop_inv (O : Oracle) (maxd : Nat) (P : String → PosData → Prop)
    (Hq : String → Nat → List String → Prop)
    (hnew : ∀ board depth hist mv, Hq board depth hist → mv ∈ O.legalMoves board →
      O.promoBR mv = false →
      P (O.applyMove board mv)
        { depth := depth + 1, moves := hist ++ [mv],
          is_checkmate := O.isCheckmate (O.applyMove board mv),
          is_stalemate := O.isStalemate (O.applyMove board mv),
          board := O.applyMove board mv, children := [] } ∧
      Hq (O.applyMove board mv) (depth + 1) (hist ++ [mv])) :
    ∀ (fuel : Nat) (queue : List (String × Nat × List String)) (tree : Tree),
    (∀ q ∈ queue, Hq q.1 q.2.1 q.2.2) →
    (∀ k d, (k, d) ∈ tree → P k d) →
    ∀ k d, (k, d) ∈ simpleLoop O maxd fuel queue tree → P k d := by
  intro fuel
  induction fuel with
  | zero =>
    intro queue tree _ hT k d hm
    exact hT k d hm
  | succ fuel ih =>
    intro queue tree hQ hT k d hm
    cases queue with
    | nil => exact hT k d hm
    | cons q rest =>
      rcases q with ⟨board, depth, hist⟩
      rw [simpleLoop] at hm
      by_cases hle : maxd ≤ depth
      · rw [if_pos hle] at hm
        exact ih rest tree (fun q hq => hQ q (List.mem_cons_of_mem _ hq)) hT k d hm
      · rw [if_neg hle] at hm
        dsimp only at hm
        have hhead : Hq board depth hist := hQ (board, depth, hist) (List.mem_cons_self _ _)
        have hstep := foldl_preserve_mem
          (I := fun acc : Tree × List (String × Nat × List String) =>
            (∀ k2 d2, (k2, d2) ∈ acc.1 → P k2 d2) ∧
            (∀ q ∈ acc.2, Hq q.1 q.2.1 q.2.2))
          (Q := fun mv => mv ∈ O.legalMoves board)
          (fun acc mv hi hq =>
            simpleExpand_inv O board depth hist P Hq
              (fun mv2 hm2 hp2 => hnew board depth hist mv2 hhead hm2 hp2)
              acc mv hq hi.1 hi.2)
          (O.legalMoves board) (tree, rest) (fun a ha => ha)
          ⟨hT, fun q hq => hQ q (List.mem_cons_of_mem _ hq)⟩
        exact ih _ _ hstep.2 hstep.1 k d hm

/-- C9.  The tree builder never stores a record at depth 0: provided the
Oracle never returns the root identity as a move result (true of chess FENs,
whose move counters advance) and any resumed-from tree already satisfies it,
every record of `generate_move_tree`'s output has depth at least 1 and a key
different from the root, and the same holds for `generate_move_tree_simple`
for every fuel; consequently the depth-statistics table built from the output
mentions no depth 0, and the root's move count is never created (its key is
absent). -/
theorem C9_no_depth_zero_record (O : Oracle) (root : String) (maxd si sin : Nat)
    (clk : Nat → Nat) (det : Option (String → String → Bool)) (lp resume : Bool)
    (stored : Option (Tree × Progress)) (init : String → Int)
    (hstored : ∀ t p, stored = some (t, p) → ∀ k d, (k, d) ∈ t →
      1 ≤ d.depth ∧ k ≠ root)
    (hroot : ∀ q m, O.applyMove q m ≠ root) :
    (∀ k d, (k, d) ∈ (generate_move_tree O root maxd resume stored det lp si sin clk).tree →
      1 ≤ d.depth ∧ k ≠ root) ∧
    (∀ fuel k d, (k, d) ∈ generate_move_tree_simple O root maxd fuel →
      1 ≤ d.depth ∧ k ≠ root) ∧
    (∀ dep s, (dep, s) ∈ collect_depth_statistics
        (generate_move_tree O root maxd resume stored det lp si sin clk).tree init [] →
      1 ≤ dep) := by
  have hinit := resumeInit_inv (fun k d => 1 ≤ d.depth ∧ k ≠ root) resume stored root hstored
  have h1 : ∀ k d, (k, d) ∈ (generate_move_tree O root maxd resume stored det lp si sin clk).tree →
      1 ≤ d.depth ∧ k ≠ root := by
    intro k d hm
    unfold generate_move_tree at hm
    by_cases hlt : maxd < (resumeInit resume stored root).1
    · rw [if_pos hlt] at hm
      exact hinit.1 k d hm
    · rw [if_neg hlt] at hm
      exact bfsLoop_inv O lp det clk si (fun k d => 1 ≤ d.depth ∧ k ≠ root)
        (fun _ _ => True)
        (fun depth hdep board hist mv _ _ _ => ⟨⟨hdep, hroot board mv⟩, trivial⟩)
        _ _ _ _ hinit.2 hinit.1 (fun _ _ => trivial) k d hm
  refine ⟨h1, ?_, ?_⟩
  · intro fuel k d hm
    exact simpleLoop_inv O maxd (fun k d => 1 ≤ d.depth ∧ k ≠ root)
      (fun _ _ _ => True)
      (fun board depth hist mv _ _ _ =>
        ⟨⟨Nat.succ_le_succ (Nat.zero_le depth), hroot board mv⟩, trivial⟩)
      fuel [(root, 0, [])] [] (fun _ _ => trivial)
      (fun k2 d2 h => absurd h (List.not_mem_nil _)) k d hm
  · intro dep s hmem
    rcases collect_depth_statistics_mem _ init [] dep s hmem with ⟨s2, h⟩ | ⟨k, d, hm, hd⟩
    · exact absurd h (List.not_mem_nil _)
    · have := (h1 k d hm).1
      omega

/-- Witness for C9 at the concrete oracle `oracleC9` and its depth-1 run. -/
theorem C9_no_depth_zero_record_witness :
    1 ≤ (PosData.mk 1 ["a"] false false "p" []).depth ∧ "p" ≠ "r" :=
  (C9_no_depth_zero_record oracleC9 "r" 1 1 500000 clk0 none true true none
    (fun _ => 0) (fun t p h => Option.noConfusion h)
    (fun q m => (by decide : ("p" : String) ≠ "r"))).1 "p"
    (PosData.mk 1 ["a"] false false "p" []) (by decide)

/-- C10.  With the default arguments (promotion limiting on, no move-filter
hook), every record the tree builder stores carries an arrival move sequence
that is a legal Oracle path from the root replaying to the record's identity
and containing no bishop/rook-promotion move — so a position reachable only
through such promotions is never stored.  The simple builder prunes the same
moves unconditionally, for every fuel. -/
theorem C10_promotion_pruning (O : Oracle) (root : String) (maxd si sin : Nat)
    (clk : Nat → Nat) :
    (∀ k d, (k, d) ∈ (generate_move_tree O root maxd true none none true si sin clk).tree →
      pathLegal O root d.moves = true ∧ replay O root d.moves = k ∧
      ∀ m ∈ d.moves, O.promoBR m = false) ∧
    (∀ fuel k d, (k, d) ∈ generate_move_tree_simple O root maxd fuel →
      pathLegal O root d.moves = true ∧ replay O root d.moves = k ∧
      ∀ m ∈ d.moves, O.promoBR m = false) := by
  constructor
  · intro k d hm
    unfold generate_move_tree at hm
    by_cases hlt : maxd < (resumeInit true none root).1
    · rw [if_pos hlt] at hm
      exact absurd hm (List.not_mem_nil _)
    · rw [if_neg hlt] at hm
      refine bfsLoop_inv O true none clk si
        (fun k d => pathLegal O root d.moves = true ∧ replay O root d.moves = k ∧
          ∀ m ∈ d.moves, O.promoBR m = false)
        (fun board hist => pathLegal O root hist = true ∧ replay O root hist = board ∧
          ∀ m ∈ hist, O.promoBR m = false)
        ?_ _ _ _ _ Nat.le.refl (fun k2 d2 h => absurd h (List.not_mem_nil _)) ?_ k d hm
      · intro depth _ board hist mv hH hmv hg
        have hpr : O.promoBR mv = false := by simpa using hg
        have hpath : pathLegal O root (hist ++ [mv]) = true := by
          apply pathLegal_snoc O hist root mv hH.1
          rw [hH.2.1]
          exact hmv
        have hrep : replay O root (hist ++ [mv]) = O.applyMove board mv := by
          rw [replay_snoc, hH.2.1]
        have hclean : ∀ m ∈ hist ++ [mv], O.promoBR m = false := by
          intro m hm2
          rcases List.mem_append.mp hm2 with h3 | h3
          · exact hH.2.2 m h3
          · rw [List.mem_singleton.mp h3]
            exact hpr
        exact ⟨⟨hpath, hrep, hclean⟩, hpath, hrep, hclean⟩
      · intro e he
        have h2 := List.mem_singleton.mp he
        subst h2
        exact ⟨rfl, rfl, fun m hm2 => absurd hm2 (List.not_mem_nil _)⟩
  · intro fuel k d hm
    refine simpleLoop_inv O maxd
      (fun k d => pathLegal O root d.moves = true ∧ replay O root d.moves = k ∧
        ∀ m ∈ d.moves, O.promoBR m = false)
      (fun board _ hist => pathLegal O root hist = true ∧ replay O root hist = board ∧
        ∀ m ∈ hist, O.promoBR m = false)
      ?_ fuel [(root, 0, [])] []
      (fun q hq => ?_) (fun k2 d2 h => absurd h (List.not_mem_nil _)) k d hm
    · intro board depth hist mv hH hmv hpr
      have hpath : pathLegal O root (hist ++ [mv]) = true := by
        apply pathLegal_snoc O hist root mv hH.1
        rw [hH.2.1]
        exact hmv
      have hrep : replay O root (hist ++ [mv]) = O.applyMove board mv := by
        rw [replay_snoc, hH.2.1]
      have hclean : ∀ m ∈ hist ++ [mv], O.promoBR m = false := by
        intro m hm2
        rcases List.mem_append.mp hm2 with h3 | h3
        · exact hH.2.2 m h3
        · rw [List.mem_singleton.mp h3]
          exact hpr
      exact ⟨⟨hpath, hrep, hclean⟩, hpath, hrep, hclean⟩
    · have h2 := List.mem_singleton.mp hq
      subst h2
      exact ⟨rfl, rfl, fun m hm2 => absurd hm2 (List.not_mem_nil _)⟩

/-- Witness for C10 at `oracleC10`: the recorded move of the stored position
`s` is not a bishop/rook promotion (the promotion move `b` was pruned). -/
theorem C10_promotion_pruning_witness : oracleC10.promoBR "q" = false :=
  ((C10_promotion_pruning oracleC10 "r" 1 1 500000 clk0).1 "s"
    (PosData.mk 1 ["q"] false false "s" []) (by decide)).2.2 "q" (by decide)

end ChessRetro
